import Mathlib

/-!
# Verification of the sled-web request/response protocol layer

A shallow embedding of the protocol layer of the `sled-web` repository:

* `src/request.rs` — the request schema and the request codec
  (`RequestType`, `IntoBody`, `IntoRequest`);
* `src/response.rs` — the per-variant `IntoResponse` handlers and the
  routing function `response`;
* `src/client.rs` — the incremental JSON response decoder
  (`BodyToJsonChunks::poll`).

Keys and values (`Vec<u8>` in the source) are modelled as `List Nat`
(each element a byte); byte strings on the wire are modelled as
`List Char`; JSON values are modelled structurally by the inductive
`Json` below.  `serde_json` is an external collaborator of the
repository (the spec assumes its encoding/decoding primitives correct),
so its `from_slice::<serde_json::Value>` entry point is modelled by the
executable parser `fromSlice` over the JSON subset the protocol emits
(integer numbers, strings with single-character escapes, arrays,
objects, `null`, booleans).
-/

namespace SledWeb

/-- Structural JSON values, as produced by `serde_json::Value`
(restricted to integer numbers, which is the only number form the
protocol emits: bytes `0..=255`). -/
inductive Json : Type where
  | null : Json
  | bool (b : Bool) : Json
  | num (n : Int) : Json
  | str (s : String) : Json
  | arr (elems : List Json) : Json
  | obj (fields : List (String × Json)) : Json

mutual

/-- Decidable equality for `Json` (the nested lists rule out automatic
derivation). -/
def decEqJson : (a b : Json) → Decidable (a = b)
  | .null, .null => isTrue rfl
  | .bool a, .bool b =>
    match instDecidableEqBool a b with
    | isTrue h => isTrue (by rw [h])
    | isFalse h => isFalse (fun he => h (Json.bool.inj he))
  | .num a, .num b =>
    match Int.instDecidableEq a b with
    | isTrue h => isTrue (by rw [h])
    | isFalse h => isFalse (fun he => h (Json.num.inj he))
  | .str a, .str b =>
    match String.decEq a b with
    | isTrue h => isTrue (by rw [h])
    | isFalse h => isFalse (fun he => h (Json.str.inj he))
  | .arr a, .arr b =>
    match decEqJsonList a b with
    | isTrue h => isTrue (by rw [h])
    | isFalse h => isFalse (fun he => h (Json.arr.inj he))
  | .obj a, .obj b =>
    match decEqJsonFields a b with
    | isTrue h => isTrue (by rw [h])
    | isFalse h => isFalse (fun he => h (Json.obj.inj he))
  | .null, .bool _ | .null, .num _ | .null, .str _ | .null, .arr _ | .null, .obj _
  | .bool _, .null | .bool _, .num _ | .bool _, .str _ | .bool _, .arr _ | .bool _, .obj _
  | .num _, .null | .num _, .bool _ | .num _, .str _ | .num _, .arr _ | .num _, .obj _
  | .str _, .null | .str _, .bool _ | .str _, .num _ | .str _, .arr _ | .str _, .obj _
  | .arr _, .null | .arr _, .bool _ | .arr _, .num _ | .arr _, .str _ | .arr _, .obj _
  | .obj _, .null | .obj _, .bool _ | .obj _, .num _ | .obj _, .str _ | .obj _, .arr _ =>
    isFalse (by intro h; exact Json.noConfusion h)

/-- Decidable equality for lists of `Json`. -/
def decEqJsonList : (a b : List Json) → Decidable (a = b)
  | [], [] => isTrue rfl
  | [], _ :: _ => isFalse (by intro h; exact List.noConfusion h)
  | _ :: _, [] => isFalse (by intro h; exact List.noConfusion h)
  | x :: xs, y :: ys =>
    match decEqJson x y with
    | isFalse h => isFalse (fun he => h (List.cons.inj he).1)
    | isTrue h1 =>
      match decEqJsonList xs ys with
      | isTrue h2 => isTrue (by rw [h1, h2])
      | isFalse h => isFalse (fun he => h (List.cons.inj he).2)

/-- Decidable equality for JSON object field lists. -/
def decEqJsonFields : (a b : List (String × Json)) → Decidable (a = b)
  | [], [] => isTrue rfl
  | [], _ :: _ => isFalse (by intro h; exact List.noConfusion h)
  | _ :: _, [] => isFalse (by intro h; exact List.noConfusion h)
  | (n, x) :: xs, (m, y) :: ys =>
    match String.decEq n m with
    | isFalse h =>
      isFalse (fun he => h (congrArg (fun l => (l.headD ("", Json.null)).1) he))
    | isTrue h0 =>
      match decEqJson x y with
      | isFalse h =>
        isFalse (fun he => h (congrArg (fun l => (l.headD ("", Json.null)).2) he))
      | isTrue h1 =>
        match decEqJsonFields xs ys with
        | isTrue h2 => isTrue (by rw [h0, h1, h2])
        | isFalse h => isFalse (fun he => h (List.cons.inj he).2)

end

instance : DecidableEq Json := decEqJson

/-! ## The JSON byte-level parser (model of `serde_json::from_slice`)

`serde_json::from_slice::<Value>` parses the **entire** input slice as
exactly one JSON value: trailing whitespace is accepted, any other
trailing bytes are a "trailing characters" error, and an incomplete or
malformed input is an error.  The parser below is fuel-indexed (the
fuel `input.length + 1` always suffices for the inputs the protocol
produces); it is used only through `fromSlice`. -/

/-- JSON insignificant whitespace. -/
def isWsChar (c : Char) : Bool :=
  c == ' ' || c == '\n' || c == '\t' || c == '\r'

/-- Skip leading whitespace. -/
def skipWs (s : List Char) : List Char :=
  s.dropWhile isWsChar

/-- Decimal digit value. -/
def digitVal (c : Char) : Nat := c.toNat - 48

/-- Consume a non-empty run of decimal digits, returning its value. -/
def takeDigits (s : List Char) : Option (Nat × List Char) :=
  match s.span Char.isDigit with
  | ([], _) => none
  | (ds, rest) => some (ds.foldl (fun a c => a * 10 + digitVal c) 0, rest)

/-- Consume the body of a JSON string after the opening quote, up to and
including the closing quote.  Escapes are modelled by taking the escaped
character literally (the protocol's error strings use no exotic
escapes). -/
def takeStrChars : List Char → Option (List Char × List Char)
  | [] => none
  | '"' :: rest => some ([], rest)
  | '\\' :: c :: rest =>
    (takeStrChars rest).map (fun p => (c :: p.1, p.2))
  | c :: rest =>
    if c == '\\' then none
    else (takeStrChars rest).map (fun p => (c :: p.1, p.2))

mutual

/-- Parse one JSON value from the head of the input (after skipping
whitespace), returning the value and the unconsumed remainder. -/
def parseVal : Nat → List Char → Option (Json × List Char)
  | 0, _ => none
  | n + 1, s =>
    match skipWs s with
    | [] => none
    | c :: r =>
      if c == 'n' then
        match r with
        | 'u' :: 'l' :: 'l' :: r2 => some (.null, r2)
        | _ => none
      else if c == 't' then
        match r with
        | 'r' :: 'u' :: 'e' :: r2 => some (.bool true, r2)
        | _ => none
      else if c == 'f' then
        match r with
        | 'a' :: 'l' :: 's' :: 'e' :: r2 => some (.bool false, r2)
        | _ => none
      else if c == '"' then
        (takeStrChars r).map (fun p => (.str (String.mk p.1), p.2))
      else if c == '[' then
        match skipWs r with
        | ']' :: r2 => some (.arr [], r2)
        | r1 => (parseElems n r1).map (fun p => (.arr p.1, p.2))
      else if c == '\x7b' then
        match skipWs r with
        | '\x7d' :: r2 => some (.obj [], r2)
        | r1 => (parseMems n r1).map (fun p => (.obj p.1, p.2))
      else if c == '-' then
        (takeDigits r).map (fun p => (.num (-(p.1 : Int)), p.2))
      else if c.isDigit then
        (takeDigits (c :: r)).map (fun p => (.num (p.1 : Int), p.2))
      else none

/-- Parse the comma-separated elements of a JSON array (the input starts
at the first element; the closing bracket is consumed). -/
def parseElems : Nat → List Char → Option (List Json × List Char)
  | 0, _ => none
  | n + 1, s =>
    match parseVal n s with
    | none => none
    | some (v, r) =>
      match skipWs r with
      | ',' :: r2 => (parseElems n r2).map (fun p => (v :: p.1, p.2))
      | ']' :: r2 => some ([v], r2)
      | _ => none

/-- Parse the comma-separated members of a JSON object (the input starts
at the first member; the closing brace is consumed). -/
def parseMems : Nat → List Char → Option (List (String × Json) × List Char)
  | 0, _ => none
  | n + 1, s =>
    match skipWs s with
    | '"' :: r =>
      match takeStrChars r with
      | none => none
      | some (name, r1) =>
        match skipWs r1 with
        | ':' :: r2 =>
          match parseVal n r2 with
          | none => none
          | some (v, r3) =>
            match skipWs r3 with
            | ',' :: r4 => (parseMems n r4).map (fun p => ((String.mk name, v) :: p.1, p.2))
            | '\x7d' :: r4 => some ([(String.mk name, v)], r4)
            | _ => none
        | _ => none
    | _ => none

end

/-- Model of `serde_json::from_slice::<serde_json::Value>`: the whole
input must be exactly one JSON value (trailing whitespace allowed);
`none` models the `Err` case (incomplete, malformed, or trailing
bytes). -/
def fromSlice (s : List Char) : Option Json :=
  match parseVal (s.length + 1) s with
  | some (v, r) => if skipWs r = [] then some v else none
  | none => none

example : fromSlice "null".toList = some .null := by decide
example : fromSlice "[1,2]".toList = some (.arr [.num 1, .num 2]) := by decide
example : fromSlice "[1][2]".toList = none := by decide
example : fromSlice "[1,".toList = none := by decide
example : fromSlice "\x7b\x22key\x22:[7]\x7d".toList = some (.obj [("key", .arr [.num 7])]) := by decide
example : fromSlice "\x22hi\x22".toList = some (.str "hi") := by decide
example : fromSlice "-3".toList = some (.num (-3)) := by decide
example : fromSlice "".toList = none := by decide

/-! ## The Incremental Response Decoder (`BodyToJsonChunks`, `src/client.rs`)

`BodyToJsonChunks::poll` loops: poll the body; on `Ready(Some(chunk))`
extend the accumulation buffer with the chunk and attempt
`serde_json::from_slice::<Value>` on the **whole** buffer — on success
clear the buffer and yield the value, on *any* parse error continue the
loop (poll the body again); on `Ready(None)` (end of stream) return
`Ready(None)` regardless of the buffer's contents; on `Err` propagate
the error.  The body delivers a finite sequence of chunks, so the
decoder is modelled as a fold of one step per chunk over the state
`(values emitted so far, buffer)`. -/

/-- One iteration of the `BodyToJsonChunks::poll` loop on an incoming
chunk: extend the buffer, attempt a whole-buffer parse, emit and clear
on success. -/
def pollStep (st : List Json × List Char) (chunk : List Char) :
    List Json × List Char :=
  let buf := st.2 ++ chunk
  match fromSlice buf with
  | some v => (st.1 ++ [v], [])
  | none => (st.1, buf)

/-- Run the decoder over a whole body: the emitted values (in order) and
the final (discarded) buffer contents. -/
def decodeChunks (chunks : List (List Char)) : List Json × List Char :=
  chunks.foldl pollStep ([], [])

/-- The sequence of JSON values the decoder emits for a body delivered
as the given chunks. -/
def decodeAll (chunks : List (List Char)) : List Json :=
  (decodeChunks chunks).1

/-- How the decoder's output sequence terminates: `ended` models
`Ok(Async::Ready(None))` (normal exhaustion), `failed` models the `Err`
case (which `BodyToJsonChunks::poll` produces only by propagating a
transport error from polling the body). -/
inductive DecEnd : Type where
  | ended : DecEnd
  | failed (e : String) : DecEnd
  deriving DecidableEq

/-- The full client-visible outcome of the decoder on one response body:
the chunks the transport delivered, and `terr` the transport error (if
any) that terminated the body.  The buffered bytes left at termination
are discarded. -/
def runDecoder (chunks : List (List Char)) (terr : Option String) :
    List Json × DecEnd :=
  ((decodeChunks chunks).1,
    match terr with
    | some e => .failed e
    | none => .ended)

example : decodeAll ["[1]".toList, "[2]".toList] = [.arr [.num 1], .arr [.num 2]] := by decide
example : decodeAll ["[1,".toList, "2]".toList] = [.arr [.num 1, .num 2]] := by decide
example : decodeAll ["[1][2]".toList] = [] := by decide

/-- A byte string is malformed for the decoder if no extension of it
parses as a single JSON value: unlike an incomplete value, it can never
be completed by further chunks. -/
def Malformed (buf : List Char) : Prop :=
  ∀ ext : List Char, fromSlice (buf ++ ext) = none

/-! ## The store model (`sled::Tree`, an external collaborator)

The store is the ordered key-value engine the protocol fronts; per the
spec it is an external collaborator: keys and values are opaque byte
sequences, keys ordered lexicographically over bytes, and `scan(key)`
iterates the entries with key ≥ `key` in ascending order.  It is
modelled as a list of entries sorted strictly ascending by key. -/

/-- The vector of bytes used as a key into a `sled::Tree`
(`Vec<u8>`; each element a byte value). -/
abbrev Key : Type := List Nat

/-- The vector of bytes representing a value within a `sled::Tree`. -/
abbrev Value : Type := List Nat

/-- An entry: a (key, value) pair. -/
abbrev Entry : Type := Key × Value

/-- The contents of a `sled::Tree`. -/
abbrev Tree : Type := List Entry

/-- Strict lexicographic order on byte sequences — the ordering of
`Vec<u8>` keys in a `sled::Tree`. -/
def keyLt : List Nat → List Nat → Bool
  | [], [] => false
  | [], _ :: _ => true
  | _ :: _, [] => false
  | a :: as, b :: bs => a < b || (a == b && keyLt as bs)

/-- A well-formed `sled::Tree` holds its entries strictly ascending by
key. -/
def TreeSorted (t : Tree) : Prop :=
  List.Pairwise (fun a b : Entry => keyLt a.1 b.1 = true) t

instance (t : Tree) : Decidable (TreeSorted t) := by
  unfold TreeSorted; infer_instance

/-- `Tree::get`: the value at the given key, if present. -/
def treeGet (t : Tree) (k : Key) : Option Value :=
  (t.find? (fun kv => kv.1 == k)).map (fun kv => kv.2)

/-- `Tree::scan(key)` (and `tree_scan` in `src/response.rs`): the
iterator over the entries starting at the first key ≥ `key`, modelled
by its produced sequence. -/
def treeScan (t : Tree) (k : Key) : List Entry :=
  t.dropWhile (fun kv => keyLt kv.1 k)

/-- `Tree::iter` (and `tree_iter` in `src/response.rs`): the iterator
over all entries. -/
def treeIter (t : Tree) : List Entry := t

/-! ### The entry-level responses of `src/response.rs` -/

/-- `impl IntoResponse for request::Succ`: the handler pushes a `0` byte
onto the key and takes the first entry of `Tree::scan` from there. -/
def succEntry (t : Tree) (k : Key) : Option Entry :=
  (treeScan t (k ++ [0])).head?

/-- `impl IntoResponse for request::SuccIncl`: the first entry of
`Tree::scan` from the key itself. -/
def succInclEntry (t : Tree) (k : Key) : Option Entry :=
  (treeScan t k).head?

/-- Modelled from the spec: `sled_search::pred` (the `sled-search`
crate is an external collaborator; only its call site is in
`src/response.rs`) returns the entry strictly preceding `key` — the
greatest entry with key < `key`, i.e. the last such entry of the
ascending store. -/
def predEntry (t : Tree) (k : Key) : Option Entry :=
  (t.filter (fun kv => keyLt kv.1 k)).getLast?

/-- Modelled from the spec: `sled_search::pred_incl` returns the entry
preceding or at `key` — the greatest entry with key ≤ `key`. -/
def predInclEntry (t : Tree) (k : Key) : Option Entry :=
  (t.filter (fun kv => !keyLt k kv.1)).getLast?

/-- Modelled from the spec: `sled_search::max` returns the entry with
the greatest key — the last entry of the ascending store. -/
def maxEntry (t : Tree) : Option Entry := t.getLast?

/-- A `filter_map`-driven stream (`futures::stream::iter_result` over
`Iterator::filter_map`), consumed to completion: the produced items
together with how many items were pulled from the underlying iterator.
`Iterator::filter_map` pulls the next underlying item whenever it is
polled, skipping items mapped to `none`, so driving the stream to its
end pulls every underlying item. -/
def produceFilterMap (f : α → Option β) : List α → List β × Nat
  | [] => ([], 0)
  | x :: xs =>
    let rest := produceFilterMap f xs
    match f x with
    | some b => (b :: rest.1, rest.2 + 1)
    | none => (rest.1, rest.2 + 1)

/-- The closure of `impl IntoResponse for request::ScanRange` at the
entry level: an entry with key ≥ `end` is mapped to `None`, an in-range
entry is kept. -/
def scanRangeFilter (e : Key) (kv : Entry) : Option Entry :=
  if keyLt kv.1 e then some kv else none

/-- The entry sequence produced by the `ScanRange` response stream,
with the number of entries pulled from the underlying `tree_scan`
iterator when the stream is driven to completion. -/
def scanRangeProduced (t : Tree) (s e : Key) : List Entry × Nat :=
  produceFilterMap (scanRangeFilter e) (treeScan t s)

/-- The entry sequence produced by the `ScanRange` response stream. -/
def scanRangeEntries (t : Tree) (s e : Key) : List Entry :=
  (scanRangeProduced t s e).1

/-! ## The request schema and codec (`src/request.rs`)

Each request type carries a fixed HTTP method and path
(`RequestType::METHOD` / `RequestType::PATH_AND_QUERY`) and serializes
its own fields as the JSON body (`IntoBody` is the identity;
`IntoRequest::into_request` emits `(METHOD, PATH_AND_QUERY,
serde_json::to_vec(body))`).  The request body is modelled at the
structural JSON level (`serde_json` byte serialization is the assumed
collaborator).

`src/request.rs` as packaged lacks the `Cas`, `Merge` and `Flush`
request structs, although `src/response.rs` and `src/client.rs` both
use them (`request::Cas`, `request::cas`, …), so those three variants
are code of this repository missing from the sources at hand; their
methods, paths and body schemas are modelled from the spec (§6: `PUT
/tree/entries/cas` with `{key, old?, new?}`, `POST /tree/entries/merge`
with `{key, value}`, `POST /tree/entries/flush` with `{}` serialized as
the unit struct). -/

/-- The HTTP methods the routing table uses. -/
inductive Method : Type where
  | GET | DELETE | POST | PUT
  deriving DecidableEq

/-- The closed set of request variants of `src/request.rs` (plus the
three variants modelled from the spec, see above). -/
inductive Req : Type where
  | get (key : Key)
  | del (key : Key)
  | set (key : Key) (value : Value)
  | cas (key : Key) (old new_ : Option Value)
  | merge (key : Key) (value : Value)
  | flush
  | iter
  | scan (key : Key)
  | scanRange (start end_ : Key)
  | max
  | pred (key : Key)
  | predIncl (key : Key)
  | succ (key : Key)
  | succIncl (key : Key)
  deriving DecidableEq

/-- serde's JSON form of a `Vec<u8>`: an array of byte values. -/
def bytesJson (k : List Nat) : Json :=
  .arr (k.map (fun b => .num (Int.ofNat b)))

/-- serde's JSON form of an `Option<Vec<u8>>` field: `null` or the byte
array. -/
def optBytesJson : Option (List Nat) → Json
  | none => .null
  | some v => bytesJson v

/-- serde's JSON form of an entry `(Vec<u8>, Vec<u8>)`. -/
def entryJson (kv : Entry) : Json :=
  .arr [bytesJson kv.1, bytesJson kv.2]

/-- serde's JSON form of an `Option<(Vec<u8>, Vec<u8>)>`. -/
def optEntryJson : Option Entry → Json
  | none => .null
  | some kv => entryJson kv

/-- `IntoRequest::into_request`, at the structural level: the variant's
fixed method and path, and its payload fields serialized to JSON (unit
structs serialize to `null`). -/
def intoRequest : Req → Method × String × Json
  | .get k => (.GET, "/tree/entries/get", .obj [("key", bytesJson k)])
  | .del k => (.DELETE, "/tree/entries/delete", .obj [("key", bytesJson k)])
  | .set k v => (.POST, "/tree/entries/set", .obj [("key", bytesJson k), ("value", bytesJson v)])
  | .cas k o n =>
    (.PUT, "/tree/entries/cas",
      .obj [("key", bytesJson k), ("old", optBytesJson o), ("new", optBytesJson n)])
  | .merge k v => (.POST, "/tree/entries/merge", .obj [("key", bytesJson k), ("value", bytesJson v)])
  | .flush => (.POST, "/tree/entries/flush", .null)
  | .iter => (.GET, "/tree/entries/iter", .null)
  | .scan k => (.GET, "/tree/entries/scan", .obj [("key", bytesJson k)])
  | .scanRange s e =>
    (.GET, "/tree/entries/scan_range", .obj [("start", bytesJson s), ("end", bytesJson e)])
  | .max => (.GET, "/tree/entries/max", .null)
  | .pred k => (.GET, "/tree/entries/pred", .obj [("key", bytesJson k)])
  | .predIncl k => (.GET, "/tree/entries/pred_incl", .obj [("key", bytesJson k)])
  | .succ k => (.GET, "/tree/entries/succ", .obj [("key", bytesJson k)])
  | .succIncl k => (.GET, "/tree/entries/succ_incl", .obj [("key", bytesJson k)])

/-! ### Structural body decoding (serde `Deserialize` for each variant)

serde's derived deserializers select fields by name (ignoring unknown
fields), require every non-`Option`-defaulted field to be present,
decode a `u8` only from an integer in `0..=255`, and decode a unit
struct only from `null`. -/

/-- Field lookup by name in a JSON object. -/
def lookupField : List (String × Json) → String → Option Json
  | [], _ => none
  | f :: fs, name => if f.1 = name then some f.2 else lookupField fs name

/-- serde: decode one `u8` from a JSON value. -/
def decByte : Json → Except String Nat
  | .num n => if n < 0 || 256 ≤ n then .error "invalid value: byte out of range" else .ok n.toNat
  | _ => .error "invalid type: expected u8"

/-- serde: decode a `Vec<u8>` from a list of JSON values. -/
def decByteList : List Json → Except String (List Nat)
  | [] => .ok []
  | j :: js =>
    match decByte j with
    | .error e => .error e
    | .ok b =>
      match decByteList js with
      | .error e => .error e
      | .ok bs => .ok (b :: bs)

/-- serde: decode a `Vec<u8>` from a JSON value. -/
def decBytes : Json → Except String (List Nat)
  | .arr js => decByteList js
  | _ => .error "invalid type: expected byte array"

/-- serde: decode an `Option<Vec<u8>>` from a JSON value. -/
def decOptBytes : Json → Except String (Option (List Nat))
  | .null => .ok none
  | j => (decBytes j).map some

/-- serde: decode a required `Vec<u8>` field of a JSON object body. -/
def decBytesField (body : Json) (name : String) : Except String (List Nat) :=
  match body with
  | .obj fs =>
    match lookupField fs name with
    | some j => decBytes j
    | none => .error "missing field"
  | _ => .error "invalid type: expected object"

/-- serde: decode a required `Option<Vec<u8>>` field of a JSON object
body. -/
def decOptBytesField (body : Json) (name : String) : Except String (Option (List Nat)) :=
  match body with
  | .obj fs =>
    match lookupField fs name with
    | some j => decOptBytes j
    | none => .error "missing field"
  | _ => .error "invalid type: expected object"

/-- serde: decode a unit struct (`Iter`, `Max`, `Flush`) — only `null`
is accepted. -/
def decUnitStruct (body : Json) (r : Req) : Except String Req :=
  match body with
  | .null => .ok r
  | _ => .error "invalid type: expected unit struct"

/-- The routing targets: one per arm of the `match` in
`response` (`src/response.rs`). -/
inductive Tag : Type where
  | get | del | set | cas | merge | flush | iter | scan | scanRange
  | max | pred | predIncl | succ | succIncl
  deriving DecidableEq

/-- The routing table of `pub fn response` (`src/response.rs`): the
`match (request.method(), request.uri().path())` over each variant's
`(METHOD, PATH_AND_QUERY)`, in source order; `none` is the fall-through
`_` arm. -/
def matchRoute (m : Method) (p : String) : Option Tag :=
  if m = .GET ∧ p = "/tree/entries/get" then some .get
  else if m = .DELETE ∧ p = "/tree/entries/delete" then some .del
  else if m = .POST ∧ p = "/tree/entries/set" then some .set
  else if m = .PUT ∧ p = "/tree/entries/cas" then some .cas
  else if m = .POST ∧ p = "/tree/entries/merge" then some .merge
  else if m = .POST ∧ p = "/tree/entries/flush" then some .flush
  else if m = .GET ∧ p = "/tree/entries/iter" then some .iter
  else if m = .GET ∧ p = "/tree/entries/scan" then some .scan
  else if m = .GET ∧ p = "/tree/entries/scan_range" then some .scanRange
  else if m = .GET ∧ p = "/tree/entries/max" then some .max
  else if m = .GET ∧ p = "/tree/entries/pred" then some .pred
  else if m = .GET ∧ p = "/tree/entries/pred_incl" then some .predIncl
  else if m = .GET ∧ p = "/tree/entries/succ" then some .succ
  else if m = .GET ∧ p = "/tree/entries/succ_incl" then some .succIncl
  else none

/-- The structural body decode performed by `deserialize_and_respond::<T>`
for the routed target's `T` (serde's derived `Deserialize`). -/
def decodeBody (tag : Tag) (body : Json) : Except String Req :=
  match tag with
  | .get => (decBytesField body "key").map Req.get
  | .del => (decBytesField body "key").map Req.del
  | .set =>
    match decBytesField body "key" with
    | .error e => .error e
    | .ok k => (decBytesField body "value").map (Req.set k)
  | .cas =>
    match decBytesField body "key" with
    | .error e => .error e
    | .ok k =>
      match decOptBytesField body "old" with
      | .error e => .error e
      | .ok o => (decOptBytesField body "new").map (Req.cas k o)
  | .merge =>
    match decBytesField body "key" with
    | .error e => .error e
    | .ok k => (decBytesField body "value").map (Req.merge k)
  | .flush => decUnitStruct body .flush
  | .iter => decUnitStruct body .iter
  | .scan => (decBytesField body "key").map Req.scan
  | .scanRange =>
    match decBytesField body "start" with
    | .error e => .error e
    | .ok s => (decBytesField body "end").map (Req.scanRange s)
  | .max => decUnitStruct body .max
  | .pred => (decBytesField body "key").map Req.pred
  | .predIncl => (decBytesField body "key").map Req.predIncl
  | .succ => (decBytesField body "key").map Req.succ
  | .succIncl => (decBytesField body "key").map Req.succIncl

/-- Server-side decoding of an HTTP request: route `(method, path)`
through the table, then structurally parse the body into the routed
variant; `none` means no route matched. -/
def decodeRequest (m : Method) (p : String) (body : Json) :
    Option (Except String Req) :=
  (matchRoute m p).map (fun tag => decodeBody tag body)

/-- A key or value whose elements are genuine byte values. -/
def validBytes (k : List Nat) : Bool := k.all (fun b => b < 256)

/-- An optional value whose elements are genuine byte values. -/
def validOptBytes : Option (List Nat) → Bool
  | none => true
  | some v => validBytes v

/-- A request variant whose payload byte sequences are genuine
`Vec<u8>` contents (every element < 256). -/
def reqValid : Req → Bool
  | .get k => validBytes k
  | .del k => validBytes k
  | .set k v => validBytes k && validBytes v
  | .cas k o n => validBytes k && validOptBytes o && validOptBytes n
  | .merge k v => validBytes k && validBytes v
  | .flush => true
  | .iter => true
  | .scan k => validBytes k
  | .scanRange s e => validBytes s && validBytes e
  | .max => true
  | .pred k => validBytes k
  | .predIncl k => validBytes k
  | .succ k => validBytes k
  | .succIncl k => validBytes k

/-! ## The router/dispatcher (`src/response.rs`)

The store handle (`Arc<sled::Tree>`) is shared by every handler; sled
operations return `Result<_, sled::Error>`.  The handle is modelled as
either a healthy tree or a failing store whose every operation reports
the given error message — enough to express the dispatcher's error
mapping (the spec treats the store's failure modes as an assumed
collaborator). -/

/-- The store handle: a healthy tree, or a store whose operations fail
with the given error description. -/
abbrev StoreH : Type := Except String Tree

deriving instance DecidableEq for Except

/-- A response body: a single JSON value, or a streamed sequence of
independently JSON-encoded chunks where a chunk may also carry a
mid-stream store error (`futures::stream::iter_result`). -/
inductive RespBody : Type where
  | single (j : Json) : RespBody
  | stream (chunks : List (Except String Json)) : RespBody
  deriving DecidableEq

/-- An HTTP response at the structural level. -/
structure Resp : Type where
  status : Nat
  body : RespBody
  deriving DecidableEq

/-- `db_err_response`: INTERNAL_SERVER_ERROR with the error's
description serialized as a JSON string. -/
def dbErrResponse (e : String) : Resp :=
  { status := 500, body := .single (.str e) }

/-- `deserialization_err_response`: BAD_REQUEST with the error's
description serialized as a JSON string. -/
def deserializationErrResponse (e : String) : Resp :=
  { status := 400, body := .single (.str e) }

/-- `Tree::get` through the handle. -/
def treeGetH (st : StoreH) (k : Key) : Except String (Option Value) :=
  st.map (fun t => treeGet t k)

/-- `tree_iter` through the handle: a failing store yields its error as
the iterator's item. -/
def treeIterH (st : StoreH) : List (Except String Entry) :=
  match st with
  | .error e => [.error e]
  | .ok t => (treeIter t).map .ok

/-- `tree_scan` through the handle. -/
def treeScanH (st : StoreH) (k : Key) : List (Except String Entry) :=
  match st with
  | .error e => [.error e]
  | .ok t => (treeScan t k).map .ok

/-- `IntoResponse::into_response` for every request variant, i.e. the
body of each `impl IntoResponse` block of `src/response.rs` (`Max`,
`Pred` and `PredIncl` call the external `sled_search` helpers, modelled
above; `Cas` relies on `sled::Tree::cas`, modelled from the spec:
swap succeeds exactly when the current value equals `old`, and a
mismatch reports `CasFailed` with the current value, which the handler
encodes as a 200 `Err(...)` body). -/
def intoResponse (st : StoreH) : Req → Resp
  | .get k =>
    match treeGetH st k with
    | .ok v => { status := 200, body := .single (optBytesJson v) }
    | .error e => dbErrResponse e
  | .del k =>
    match treeGetH st k with
    | .ok v => { status := 200, body := .single (optBytesJson v) }
    | .error e => dbErrResponse e
  | .set _ _ =>
    match st with
    | .ok _ => { status := 201, body := .single .null }
    | .error e => dbErrResponse e
  | .cas k o _ =>
    match st with
    | .error e => dbErrResponse e
    | .ok t =>
      if treeGet t k = o then
        { status := 200, body := .single (.obj [("Ok", .null)]) }
      else
        { status := 200, body := .single (.obj [("Err", optBytesJson (treeGet t k))]) }
  | .merge _ _ =>
    match st with
    | .ok _ => { status := 201, body := .single .null }
    | .error e => dbErrResponse e
  | .flush =>
    match st with
    | .ok _ => { status := 200, body := .single .null }
    | .error e => dbErrResponse e
  | .iter =>
    { status := 200, body := .stream ((treeIterH st).map (fun r => r.map entryJson)) }
  | .scan k =>
    { status := 200, body := .stream ((treeScanH st k).map (fun r => r.map entryJson)) }
  | .scanRange s e =>
    { status := 200,
      body := .stream
        (match st with
         | .error em => [.error em]
         | .ok t => (scanRangeEntries t s e).map (fun kv => .ok (entryJson kv))) }
  | .max =>
    match st with
    | .ok t => { status := 200, body := .single (optEntryJson (maxEntry t)) }
    | .error e => dbErrResponse e
  | .pred k =>
    match st with
    | .ok t => { status := 200, body := .single (optEntryJson (predEntry t k)) }
    | .error e => dbErrResponse e
  | .predIncl k =>
    match st with
    | .ok t => { status := 200, body := .single (optEntryJson (predInclEntry t k)) }
    | .error e => dbErrResponse e
  | .succ k =>
    match st with
    | .ok t => { status := 200, body := .single (optEntryJson (succEntry t k)) }
    | .error e => dbErrResponse e
  | .succIncl k =>
    match st with
    | .ok t => { status := 200, body := .single (optEntryJson (succInclEntry t k)) }
    | .error e => dbErrResponse e

/-- `pub fn response` (`src/response.rs`): match `(method, path)`
against the routing table; on a match, run
`concat_and_respond::<T>` = buffer the body, structurally decode it
(failure → `deserialization_err_response`), and dispatch to
`IntoResponse::into_response`.  The fall-through `_` arm of the source
is `unimplemented!()`, which panics: that absence of any produced
response is modelled as `none`. -/
def response (st : StoreH) (m : Method) (p : String) (body : Json) :
    Option Resp :=
  match matchRoute m p with
  | none => none
  | some tag =>
    some (match decodeBody tag body with
          | .error e => deserializationErrResponse e
          | .ok req => intoResponse st req)

/-- The streaming request variants (`Iter`, `Scan`, `ScanRange`): their
responses hand the body off to the entry stream bridge instead of a
single buffered JSON value. -/
def isStreamingReq : Req → Bool
  | .iter | .scan _ | .scanRange _ _ => true
  | _ => false

/-! ## Order lemmas for byte-sequence keys -/

theorem keyLt_nil_right : ∀ k : List Nat, keyLt k [] = false
  | [] => rfl
  | _ :: _ => rfl

theorem keyLt_trans :
    ∀ a b c : List Nat, keyLt a b = true → keyLt b c = true → keyLt a c = true := by
  intro a
  induction a with
  | nil =>
    intro b c hab hbc
    cases b with
    | nil => simp [keyLt] at hab
    | cons y ys =>
      cases c with
      | nil => simp [keyLt_nil_right] at hbc
      | cons z zs => simp [keyLt]
  | cons x xs ih =>
    intro b c hab hbc
    cases b with
    | nil => simp [keyLt] at hab
    | cons y ys =>
      cases c with
      | nil => simp [keyLt_nil_right] at hbc
      | cons z zs =>
        simp only [keyLt, Bool.or_eq_true, Bool.and_eq_true, decide_eq_true_eq,
          beq_iff_eq] at hab hbc ⊢
        rcases hab with h1 | ⟨rfl, h1⟩ <;> rcases hbc with h2 | ⟨rfl, h2⟩
        · exact Or.inl (Nat.lt_trans h1 h2)
        · exact Or.inl h1
        · exact Or.inl h2
        · exact Or.inr ⟨rfl, ih _ _ h1 h2⟩

/-- Totality: two keys neither of which is below the other are equal. -/
theorem keyLt_antisymm :
    ∀ a b : List Nat, keyLt a b = false → keyLt b a = false → a = b := by
  intro a
  induction a with
  | nil =>
    intro b hab _
    cases b with
    | nil => rfl
    | cons y ys => simp [keyLt] at hab
  | cons x xs ih =>
    intro b hab hba
    cases b with
    | nil => simp [keyLt] at hba
    | cons y ys =>
      simp only [keyLt, Bool.or_eq_false_iff, Bool.and_eq_false_iff,
        decide_eq_false_iff_not, beq_eq_false_iff_ne, ne_eq] at hab hba
      obtain ⟨hxy, hab2⟩ := hab
      obtain ⟨hyx, hba2⟩ := hba
      have hxyeq : x = y := by omega
      subst hxyeq
      rcases hab2 with h | h
      · exact absurd rfl h
      · rcases hba2 with h2 | h2
        · exact absurd rfl h2
        · rw [ih ys h h2]

/-- The immediate lexicographic successor: a key `x` is strictly above
`k` exactly when it is at or above `k ++ [0]` — the fact behind the
`Succ` handler's `self.key.push(0)`. -/
theorem keyLt_push_zero :
    ∀ k x : List Nat, keyLt k x = true ↔ keyLt x (k ++ [0]) = false := by
  intro k
  induction k with
  | nil =>
    intro x
    cases x with
    | nil => simp [keyLt]
    | cons y ys => simp [keyLt, keyLt_nil_right]
  | cons a as ih =>
    intro x
    cases x with
    | nil => simp [keyLt]
    | cons y ys =>
      simp only [keyLt, List.cons_append, Bool.or_eq_true, Bool.and_eq_true,
        decide_eq_true_eq, beq_iff_eq, Bool.or_eq_false_iff, Bool.and_eq_false_iff,
        decide_eq_false_iff_not, beq_eq_false_iff_ne, ne_eq]
      constructor
      · rintro (h | ⟨rfl, h⟩)
        · exact ⟨by omega, Or.inl (by omega)⟩
        · exact ⟨by omega, Or.inr ((ih ys).mp h)⟩
      · rintro ⟨h1, h2⟩
        rcases Nat.lt_trichotomy a y with h | h | h
        · exact Or.inl h
        · subst h
          rcases h2 with h2 | h2
          · exact absurd rfl h2
          · exact Or.inr ⟨rfl, (ih ys).mpr h2⟩
        · exact absurd h1 (by omega)

/-! ## The scan iterator on a sorted tree -/

/-- On a sorted tree, the `scan` iterator's sequence is exactly the
entries at or above the key, in store order. -/
theorem treeScan_eq_filter (t : Tree) (ht : TreeSorted t) (k : Key) :
    treeScan t k = t.filter (fun kv => !keyLt kv.1 k) := by
  induction t with
  | nil => rfl
  | cons a l ih =>
    rw [TreeSorted, List.pairwise_cons] at ht
    obtain ⟨ha, hl⟩ := ht
    by_cases h : keyLt a.1 k = true
    · simp [treeScan, List.dropWhile_cons, h, List.filter_cons]
      exact ih hl
    · have hfalse : keyLt a.1 k = false := by
        revert h; cases keyLt a.1 k <;> simp
      simp only [treeScan, List.dropWhile_cons, hfalse, Bool.false_eq_true, if_false,
        List.filter_cons, Bool.not_false, if_pos trivial]
      rw [List.filter_eq_self.mpr]
      intro b hb
      have hab := ha b hb
      simp only [Bool.not_eq_true']
      by_cases hbk : keyLt b.1 k = true
      · exact absurd (keyLt_trans _ _ _ hab hbk) (by simp [hfalse])
      · revert hbk; cases keyLt b.1 k <;> simp

theorem produceFilterMap_fst {α β : Type} (f : α → Option β) :
    ∀ l : List α, (produceFilterMap f l).1 = l.filterMap f := by
  intro l
  induction l with
  | nil => rfl
  | cons x xs ih =>
    simp only [produceFilterMap, List.filterMap_cons]
    cases f x <;> simp [ih]

theorem produceFilterMap_snd {α β : Type} (f : α → Option β) :
    ∀ l : List α, (produceFilterMap f l).2 = l.length := by
  intro l
  induction l with
  | nil => rfl
  | cons x xs ih =>
    simp only [produceFilterMap, List.length_cons]
    cases f x <;> simp [ih]

/-- The entries the `ScanRange` stream emits, on a sorted tree: the
half-open range `start ≤ key < end`, in store order. -/
theorem scanRangeEntries_eq_filter (t : Tree) (ht : TreeSorted t) (s e : Key) :
    scanRangeEntries t s e = t.filter (fun kv => !keyLt kv.1 s && keyLt kv.1 e) := by
  unfold scanRangeEntries scanRangeProduced
  rw [produceFilterMap_fst, treeScan_eq_filter t ht s]
  have hfm : ∀ l : List Entry,
      l.filterMap (scanRangeFilter e) = l.filter (fun kv => keyLt kv.1 e) := by
    intro l
    induction l with
    | nil => rfl
    | cons x xs ih =>
      simp only [List.filterMap_cons, List.filter_cons, scanRangeFilter]
      by_cases h : keyLt x.1 e = true
      · simp [h, ih]
      · simp only [Bool.not_eq_true] at h
        simp [h, ih]
  rw [hfm, List.filter_filter]
  exact List.filter_congr (fun kv _ => by rw [Bool.and_comm])

/-- The head of a sorted list is below every other member. -/
theorem pairwise_head?_min {α : Type} {R : α → α → Prop} (l : List α) (a : α)
    (hp : l.Pairwise R) (hh : l.head? = some a) : ∀ x ∈ l, x = a ∨ R a x := by
  cases l with
  | nil => simp at hh
  | cons b rest =>
    simp only [List.head?_cons, Option.some.injEq] at hh
    subst hh
    rw [List.pairwise_cons] at hp
    intro x hx
    rcases List.mem_cons.mp hx with rfl | h
    · exact Or.inl rfl
    · exact Or.inr (hp.1 x h)

/-- The last element of a sorted list is above every other member. -/
theorem pairwise_getLast?_max {α : Type} {R : α → α → Prop} :
    ∀ (l : List α) (a : α), l.Pairwise R → l.getLast? = some a →
      ∀ x ∈ l, x = a ∨ R x a := by
  intro l
  induction l with
  | nil => simp
  | cons b rest ih =>
    intro a hp hl x hx
    cases rest with
    | nil =>
      simp only [List.getLast?_singleton, Option.some.injEq] at hl
      subst hl
      rcases List.mem_singleton.mp hx with rfl
      exact Or.inl rfl
    | cons c cs =>
      rw [List.getLast?_cons_cons] at hl
      rw [List.pairwise_cons] at hp
      rcases List.mem_cons.mp hx with rfl | hx2
      · exact Or.inr (hp.1 a (List.mem_of_mem_getLast? (Option.mem_def.mpr hl)))
      · exact ih a hp.2 hl x hx2

/-- The boolean form of `keyLt_push_zero`. -/
theorem not_keyLt_push_zero (k x : List Nat) :
    (!keyLt x (k ++ [0])) = keyLt k x := by
  cases h : keyLt k x
  · cases h2 : keyLt x (k ++ [0])
    · exact absurd ((keyLt_push_zero k x).mpr h2) (by simp [h])
    · rfl
  · rw [(keyLt_push_zero k x).mp h]
    rfl

/-- On a sorted tree, the `Succ` handler's scan-from-`key ++ [0]`
sequence is exactly the entries strictly above `key`. -/
theorem treeScan_push_zero (t : Tree) (ht : TreeSorted t) (k : Key) :
    treeScan t (k ++ [0]) = t.filter (fun kv => keyLt k kv.1) := by
  rw [treeScan_eq_filter t ht]
  exact List.filter_congr (fun kv _ => not_keyLt_push_zero k kv.1)

/-! ## Example trees used by witnesses and counterexamples -/

/-- A store with the single-byte keys 1..5 (the configuration named by
the spec's range half-openness property). -/
def exampleTree : Tree :=
  [([1], [10]), ([2], [20]), ([3], [30]), ([4], [40]), ([5], [50])]

/-- A store with keys {2, 4} (the configuration named by the spec's
predecessor/successor property). -/
def exampleTree24 : Tree := [([2], [20]), ([4], [40])]

/-! ## C4 — ScanRange half-openness -/

/-- C4: for every (sorted) store state and every `ScanRange(start, end)`
request, the produced stream of entries is exactly the store's entries
with `start ≤ key < end`, in ascending (store) order: every entry with
key ≥ `end` is excluded and an entry with key = `start` is included if
present. -/
theorem scanRange_half_open (t : Tree) (ht : TreeSorted t) (s e : Key) :
    scanRangeEntries t s e = t.filter (fun kv => !keyLt kv.1 s && keyLt kv.1 e) :=
  scanRangeEntries_eq_filter t ht s e

/-- Witness for C4 at the spec's own example: keys [1..5],
`ScanRange([2],[5])` yields exactly the entries with keys 2,3,4 in
order, and `ScanRange([2],[2])` yields the empty stream. -/
theorem scanRange_half_open_witness :
    TreeSorted exampleTree ∧
      scanRangeEntries exampleTree [2] [5]
        = exampleTree.filter (fun kv => !keyLt kv.1 [2] && keyLt kv.1 [5]) ∧
      scanRangeEntries exampleTree [2] [5] = [([2], [20]), ([3], [30]), ([4], [40])] ∧
      scanRangeEntries exampleTree [2] [2] = [] :=
  ⟨by decide, scanRange_half_open exampleTree (by decide) [2] [5], by decide, by decide⟩

/-! ## C8 — ScanRange never stops pulling -/

/-- Counterexample for C8: on the store with keys 1..5 and
`ScanRange([2],[3])`, the first out-of-range entry (key 3, index 1 of
the underlying `tree_scan` iterator) is observed at the second pull, so
the claim allows at most 2 pulls — but the `filter_map`-based stream,
driven to completion, pulls all 4 entries of `tree_scan(tree, [2])`. -/
theorem scanRange_stops_counterexample :
    ¬ ((scanRangeProduced exampleTree [2] [3]).2
        ≤ (treeScan exampleTree [2]).findIdx (fun kv => !keyLt kv.1 [3]) + 1) := by
  decide

/-- C8 amended: the `ScanRange` stream is built with
`Iterator::filter_map`, which never terminates the underlying
iteration early: driven to completion it pulls every entry of
`tree_scan(tree, start)` (entries with key ≥ `end` are filtered out
one by one), even though the emitted content is still exactly the
half-open range. -/
theorem scanRange_pulls_every_entry (t : Tree) (ht : TreeSorted t) (s e : Key) :
    scanRangeProduced t s e
      = (t.filter (fun kv => !keyLt kv.1 s && keyLt kv.1 e), (treeScan t s).length) := by
  have h1 := scanRangeEntries_eq_filter t ht s e
  unfold scanRangeEntries at h1
  refine Prod.ext h1 ?_
  unfold scanRangeProduced
  exact produceFilterMap_snd _ _

/-- Witness for C8's amended claim on the store with keys 1..5:
`ScanRange([2],[3])` emits only the entry at key 2 but pulls all 4
entries the underlying scan iterator can produce. -/
theorem scanRange_pulls_every_entry_witness :
    TreeSorted exampleTree ∧
      scanRangeProduced exampleTree [2] [3]
        = (exampleTree.filter (fun kv => !keyLt kv.1 [2] && keyLt kv.1 [3]),
            (treeScan exampleTree [2]).length) ∧
      scanRangeProduced exampleTree [2] [3] = ([([2], [20])], 4) :=
  ⟨by decide, scanRange_pulls_every_entry exampleTree (by decide) [2] [3], by decide⟩

/-! ## C5 — predecessor/successor exactness -/

/-- On a sorted tree, the head of a filtered sub-list is the least
entry satisfying the filter (and `none` means no entry satisfies it). -/
theorem filter_head?_least (t : Tree) (ht : TreeSorted t) (p : Entry → Bool) :
    (∀ e, (t.filter p).head? = some e → e ∈ t ∧ p e = true ∧
        ∀ x ∈ t, p x = true → e = x ∨ keyLt e.1 x.1 = true) ∧
      ((t.filter p).head? = none → ∀ x ∈ t, p x = false) := by
  have hp : (t.filter p).Pairwise (fun a b : Entry => keyLt a.1 b.1 = true) :=
    ht.sublist (List.filter_sublist t)
  constructor
  · intro e he
    have hmem := List.mem_filter.mp (List.mem_of_mem_head? he)
    refine ⟨hmem.1, hmem.2, ?_⟩
    intro x hx hpx
    rcases pairwise_head?_min _ e hp he x (List.mem_filter.mpr ⟨hx, hpx⟩) with h | h
    · exact Or.inl h.symm
    · exact Or.inr h
  · intro he x hx
    have hnil : t.filter p = [] := List.head?_eq_none_iff.mp he
    cases hpx : p x
    · rfl
    · exact absurd (hnil ▸ List.mem_filter.mpr ⟨hx, hpx⟩) (List.not_mem_nil x)

/-- On a sorted tree, the last element of a filtered sub-list is the
greatest entry satisfying the filter (and `none` means no entry
satisfies it). -/
theorem filter_getLast?_greatest (t : Tree) (ht : TreeSorted t) (p : Entry → Bool) :
    (∀ e, (t.filter p).getLast? = some e → e ∈ t ∧ p e = true ∧
        ∀ x ∈ t, p x = true → e = x ∨ keyLt x.1 e.1 = true) ∧
      ((t.filter p).getLast? = none → ∀ x ∈ t, p x = false) := by
  have hp : (t.filter p).Pairwise (fun a b : Entry => keyLt a.1 b.1 = true) :=
    ht.sublist (List.filter_sublist t)
  constructor
  · intro e he
    have hmem := List.mem_filter.mp (List.mem_of_mem_getLast? (Option.mem_def.mpr he))
    refine ⟨hmem.1, hmem.2, ?_⟩
    intro x hx hpx
    rcases pairwise_getLast?_max _ e hp he x (List.mem_filter.mpr ⟨hx, hpx⟩) with h | h
    · exact Or.inl h.symm
    · exact Or.inr h
  · intro he x hx
    have hnil : t.filter p = [] := List.getLast?_eq_none_iff.mp he
    cases hpx : p x
    · rfl
    · exact absurd (hnil ▸ List.mem_filter.mpr ⟨hx, hpx⟩) (List.not_mem_nil x)

/-- C5: on every (sorted) store state and key `k`, `Succ(k)` returns
the least entry with key strictly greater than `k` (an entry exactly at
`k` excluded), `SuccIncl(k)` the least entry with key ≥ `k` (an entry
at `k` included), `Pred(k)` the greatest entry with key strictly less
than `k`, and `PredIncl(k)` the greatest entry with key ≤ `k`; each
returns `none` exactly when no such entry exists. -/
theorem succ_pred_exactness (t : Tree) (ht : TreeSorted t) (k : Key) :
    (∀ e, succEntry t k = some e → e ∈ t ∧ keyLt k e.1 = true ∧
        ∀ x ∈ t, keyLt k x.1 = true → e = x ∨ keyLt e.1 x.1 = true) ∧
      (succEntry t k = none → ∀ x ∈ t, keyLt k x.1 = false) ∧
      (∀ e, succInclEntry t k = some e → e ∈ t ∧ keyLt e.1 k = false ∧
        ∀ x ∈ t, keyLt x.1 k = false → e = x ∨ keyLt e.1 x.1 = true) ∧
      (succInclEntry t k = none → ∀ x ∈ t, keyLt x.1 k = true) ∧
      (∀ e, predEntry t k = some e → e ∈ t ∧ keyLt e.1 k = true ∧
        ∀ x ∈ t, keyLt x.1 k = true → e = x ∨ keyLt x.1 e.1 = true) ∧
      (predEntry t k = none → ∀ x ∈ t, keyLt x.1 k = false) ∧
      (∀ e, predInclEntry t k = some e → e ∈ t ∧ keyLt k e.1 = false ∧
        ∀ x ∈ t, keyLt k x.1 = false → e = x ∨ keyLt x.1 e.1 = true) ∧
      (predInclEntry t k = none → ∀ x ∈ t, keyLt k x.1 = true) := by
  have hsucc : succEntry t k = (t.filter (fun kv => keyLt k kv.1)).head? := by
    unfold succEntry
    rw [treeScan_push_zero t ht k]
  have hsuccIncl : succInclEntry t k = (t.filter (fun kv => !keyLt kv.1 k)).head? := by
    unfold succInclEntry
    rw [treeScan_eq_filter t ht k]
  have h1 := filter_head?_least t ht (fun kv => keyLt k kv.1)
  have h2 := filter_head?_least t ht (fun kv => !keyLt kv.1 k)
  have h3 := filter_getLast?_greatest t ht (fun kv => keyLt kv.1 k)
  have h4 := filter_getLast?_greatest t ht (fun kv => !keyLt k kv.1)
  refine ⟨?_, ?_, ?_, ?_, ?_, ?_, ?_, ?_⟩
  · intro e he
    exact h1.1 e (hsucc ▸ he)
  · intro he x hx
    exact h1.2 (hsucc ▸ he) x hx
  · intro e he
    have h := h2.1 e (hsuccIncl ▸ he)
    refine ⟨h.1, by simpa using h.2.1, ?_⟩
    intro x hx hpx
    exact h.2.2 x hx (by simpa using hpx)
  · intro he x hx
    have h := h2.2 (hsuccIncl ▸ he) x hx
    simpa using h
  · intro e he
    exact h3.1 e he
  · intro he x hx
    exact h3.2 he x hx
  · intro e he
    have h := h4.1 e he
    refine ⟨h.1, by simpa using h.2.1, ?_⟩
    intro x hx hpx
    exact h.2.2 x hx (by simpa using hpx)
  · intro he x hx
    have h := h4.2 he x hx
    simpa using h

/-- Witness for C5 at the spec's own example: on a store with keys
{2, 4}, `Succ([2])` yields the entry at key 4 — the least entry
strictly above 2. -/
theorem succ_pred_exactness_witness :
    (([4], [40]) : Entry) ∈ exampleTree24 ∧ keyLt [2] [4] = true ∧
      (∀ x ∈ exampleTree24, keyLt [2] x.1 = true →
        (([4], [40]) : Entry) = x ∨ keyLt [4] x.1 = true) :=
  (succ_pred_exactness exampleTree24 (by decide) [2]).1 ([4], [40]) (by decide)

/-! ## C1 — request round-trip through the routing table -/

/-- Decoding inverts serde's byte-array encoding on genuine byte
sequences. -/
theorem decByteList_map (k : List Nat) (h : validBytes k = true) :
    decByteList (k.map (fun b => .num (Int.ofNat b))) = .ok k := by
  induction k with
  | nil => rfl
  | cons b bs ih =>
    simp only [validBytes, List.all_cons, Bool.and_eq_true, decide_eq_true_eq] at h
    have hb : decByte (.num (Int.ofNat b)) = .ok b := by
      simp only [decByte]
      have h1 : ¬(Int.ofNat b < 0 || 256 ≤ Int.ofNat b) = true := by
        simp only [Bool.or_eq_true, decide_eq_true_eq, Int.ofNat_eq_coe]
        omega
      rw [if_neg h1]
      simp
    simp only [List.map_cons, decByteList, hb, ih (by simp [validBytes, h.2])]

theorem decBytes_bytesJson (k : List Nat) (h : validBytes k = true) :
    decBytes (bytesJson k) = .ok k := by
  simp only [bytesJson, decBytes]
  exact decByteList_map k h

theorem decOptBytes_optBytesJson (o : Option (List Nat)) (h : validOptBytes o = true) :
    decOptBytes (optBytesJson o) = .ok o := by
  cases o with
  | none => rfl
  | some v =>
    simp only [validOptBytes] at h
    simp only [optBytesJson, bytesJson, decOptBytes, decBytes, decByteList_map v h,
      Except.map]

/-- C1: for every request variant, encoding it to its
`(method, path, JSON body)` via `into_request` and decoding that
triple back through the server's routing table and structural body
parse yields the original variant. -/
theorem request_roundtrip (r : Req) (h : reqValid r = true) :
    decodeRequest (intoRequest r).1 (intoRequest r).2.1 (intoRequest r).2.2
      = some (.ok r) := by
  cases r <;>
    simp_all [intoRequest, decodeRequest, matchRoute, decodeBody, decBytesField,
      decOptBytesField, lookupField, decUnitStruct, reqValid,
      decBytes_bytesJson, decOptBytes_optBytesJson, Except.map]

/-- Witness for C1 at a concrete variant with a non-trivial payload
(including an empty byte sequence). -/
theorem request_roundtrip_witness :
    reqValid (.scanRange [] [0, 255]) = true ∧
      decodeRequest (intoRequest (.scanRange [] [0, 255])).1
          (intoRequest (.scanRange [] [0, 255])).2.1
          (intoRequest (.scanRange [] [0, 255])).2.2
        = some (.ok (.scanRange [] [0, 255])) :=
  ⟨by decide, request_roundtrip (.scanRange [] [0, 255]) (by decide)⟩

/-! ## C3 — unmatched routes -/

/-- Counterexample for C3: on an unmatched `(method, path)` pair the
source's fall-through arm is `unimplemented!()`, which panics the
serving task instead of producing any response; the panic is modelled
as the absence of a produced response (`none`), so no "defined error
response with a non-panicking status" exists. -/
theorem route_not_found_counterexample :
    matchRoute .GET "/nope" = none ∧ response (.ok []) .GET "/nope" .null = none := by
  constructor
  · decide
  · rfl

/-- C3 amended: an unmatched `(method, path)` pair is a distinct,
explicit case of the router (the wildcard arm, reached only when no
table entry matches), but that arm panics via `unimplemented!()`
(modelled: no response is produced) instead of answering with a defined
error status; every matched route, by contrast, always produces a
response (a 400 for an invalid body rather than a panic). -/
theorem route_not_found_panics (st : StoreH) (m : Method) (p : String) (body : Json) :
    (matchRoute m p = none → response st m p body = none) ∧
      (∀ tag, matchRoute m p = some tag → ∃ r, response st m p body = some r) := by
  constructor
  · intro h
    simp [response, h]
  · intro tag h
    simp only [response, h]
    exact ⟨_, rfl⟩

/-- Witness for C3's amended claim: the unmatched pair
`(POST, "/tree/entries/get")` produces no response (the panic arm),
while the matched pair `(GET, "/tree/entries/get")` produces one. -/
theorem route_not_found_panics_witness :
    response (.ok []) .POST "/tree/entries/get" .null = none ∧
      ∃ r, response (.ok []) .GET "/tree/entries/get" .null = some r :=
  ⟨(route_not_found_panics (.ok []) .POST "/tree/entries/get" .null).1 (by decide),
    (route_not_found_panics (.ok []) .GET "/tree/entries/get" .null).2 .get (by decide)⟩

/-! ## C6 — error statuses -/

/-- Counterexample for C6: a request whose store operation fails does
not always get a 500 — the streaming routes fix their status at 200
before any entry is pulled, so an `Iter` request against a failing
store responds 200 and surfaces the store failure as a mid-stream
error chunk. -/
theorem error_statuses_counterexample :
    response (.error "boom") .GET "/tree/entries/iter" .null
        = some { status := 200, body := .stream [.error "boom"] } ∧
      (200 : Nat) ≠ 500 := by
  constructor
  · rfl
  · decide

/-- C6 amended: every matched request whose body fails structural JSON
decoding gets status 400 with the failure description as a single JSON
string (never a panic or a 500); every *non-streaming* matched request
whose store operation fails gets status 500 with the failure
description as a single JSON string, while the streaming routes
(`Iter`, `Scan`, `ScanRange`) respond 200 and surface a store failure
as a terminal error of the stream. -/
theorem error_statuses (st : StoreH) (m : Method) (p : String) (body : Json) :
    (∀ tag e, matchRoute m p = some tag → decodeBody tag body = .error e →
        response st m p body = some { status := 400, body := .single (.str e) }) ∧
      (∀ em req tag, matchRoute m p = some tag → decodeBody tag body = .ok req →
        isStreamingReq req = false →
        response (.error em) m p body = some { status := 500, body := .single (.str em) }) ∧
      (∀ em req tag, matchRoute m p = some tag → decodeBody tag body = .ok req →
        isStreamingReq req = true →
        ∃ chunks, response (.error em) m p body
            = some { status := 200, body := .stream chunks } ∧ .error em ∈ chunks) := by
  refine ⟨?_, ?_, ?_⟩
  · intro tag e h1 h2
    simp [response, h1, h2, deserializationErrResponse]
  · intro em req tag h1 h2 h3
    simp only [response, h1, h2]
    cases req <;> simp_all [isStreamingReq, intoResponse, treeGetH, Except.map,
      dbErrResponse]
  · intro em req tag h1 h2 h3
    simp only [response, h1, h2]
    cases req <;> simp_all [isStreamingReq, intoResponse, treeIterH, treeScanH, Except.map]

/-- Witness for C6's amended claim: a malformed `Set` body gets a 400
string-body response, and a failing store turns a `Get` into a 500
string-body response. -/
theorem error_statuses_witness :
    response (.ok []) .POST "/tree/entries/set" (.str "oops")
        = some { status := 400, body := .single (.str "invalid type: expected object") } ∧
      response (.error "io error") .GET "/tree/entries/get"
          (.obj [("key", .arr [.num 1])])
        = some { status := 500, body := .single (.str "io error") } :=
  ⟨(error_statuses (.ok []) .POST "/tree/entries/set" (.str "oops")).1
      .set "invalid type: expected object" (by decide) (by decide),
    (error_statuses (.ok []) .GET "/tree/entries/get"
        (.obj [("key", .arr [.num 1])])).2.1
      "io error" (.get [1]) .get (by decide) (by decide) (by decide)⟩

/-! ## C2 — chunk-boundary invariance of the decoder -/

theorem fromSlice_nil : fromSlice [] = none := rfl

/-- Trailing chunks that carry no bytes leave the decoder state
unchanged. -/
theorem foldl_pollStep_nil_flatten :
    ∀ (chunks : List (List Char)) (out : List Json),
      chunks.flatten = [] → List.foldl pollStep (out, []) chunks = (out, []) := by
  intro chunks
  induction chunks with
  | nil => intro out _; rfl
  | cons c cs ih =>
    intro out h
    rw [List.flatten_cons] at h
    obtain ⟨hc, hcs⟩ := List.append_eq_nil.mp h
    subst hc
    show List.foldl pollStep (pollStep (out, []) []) cs = (out, [])
    have hstep : pollStep (out, []) [] = (out, []) := rfl
    rw [hstep]
    exact ih out hcs

/-- While the accumulated buffer is a strict front part of a value
whose encoding admits no shorter parse, the decoder keeps accumulating
and emits the value exactly when the buffer is complete. -/
theorem foldl_pollStep_accum (s : List Char) (v : Json)
    (hv : fromSlice s = some v)
    (hpref : ∀ n, n < s.length → fromSlice (s.take n) = none) :
    ∀ (chunks : List (List Char)) (out : List Json) (b : List Char),
      b ++ chunks.flatten = s → b.length < s.length →
      List.foldl pollStep (out, b) chunks = (out ++ [v], []) := by
  intro chunks
  induction chunks with
  | nil =>
    intro out b hb hlen
    rw [List.flatten_nil, List.append_nil] at hb
    subst hb
    exact absurd hlen (by omega)
  | cons c cs ih =>
    intro out b hb hlen
    rw [List.flatten_cons, ← List.append_assoc] at hb
    show List.foldl pollStep (pollStep (out, b) c) cs = (out ++ [v], [])
    by_cases hcase : (b ++ c).length < s.length
    · have htake : s.take (b ++ c).length = b ++ c := by
        rw [← hb]
        exact List.take_left _ _
      have hnone : fromSlice (b ++ c) = none := by
        have := hpref (b ++ c).length hcase
        rwa [htake] at this
      have hstep : pollStep (out, b) c = (out, b ++ c) := by
        simp [pollStep, hnone]
      rw [hstep]
      exact ih out (b ++ c) hb hcase
    · have hle : (b ++ c).length ≤ s.length := by
        have hlens := congrArg List.length hb
        rw [List.length_append] at hlens
        omega
      have heq : (b ++ c).length = s.length := by omega
      have hflat : cs.flatten = [] := by
        have hlens := congrArg List.length hb
        rw [List.length_append] at hlens
        exact List.length_eq_zero.mp (by omega)
      have hbc : b ++ c = s := by
        rw [← hb, hflat, List.append_nil]
      have hstep : pollStep (out, b) c = (out ++ [v], []) := by
        simp [pollStep, hbc, hv]
      rw [hstep]
      exact foldl_pollStep_nil_flatten cs (out ++ [v]) hflat

/-- Counterexample for C2: the bytes `"[1][2]"` (two concatenated
values) fed as two single-value chunks decode to both values, but fed
as one chunk containing several whole values they decode to nothing —
the whole-buffer parse fails with trailing data on every attempt, so
the decoder stalls and the sequences differ. -/
theorem chunk_invariance_counterexample :
    "[1]".toList ++ "[2]".toList = "[1][2]".toList ∧
      decodeAll ["[1]".toList, "[2]".toList] = [.arr [.num 1], .arr [.num 2]] ∧
      decodeAll ["[1][2]".toList] = [] ∧
      decodeAll ["[1]".toList, "[2]".toList] ≠ decodeAll ["[1][2]".toList] := by
  refine ⟨by decide, by decide, by decide, by decide⟩

/-- C2 amended: chunk-boundary invariance holds for one JSON value at a
time, provided no strict leading part of its encoding already parses as
a complete value (true of every payload this protocol emits — arrays,
objects, strings, `null`, booleans — but false for bare numbers): for
any split of the value's bytes into chunks, the decoder emits exactly
the same sequence as for the unsplit bytes.  It fails for chunks that
contain several whole values (see the counterexample), because the
decoder parses only the whole buffer and never a shorter piece of
it. -/
theorem chunk_boundary_invariance (s : List Char) (v : Json)
    (chunks : List (List Char))
    (hv : fromSlice s = some v)
    (hpref : ∀ n, n < s.length → fromSlice (s.take n) = none)
    (hflat : chunks.flatten = s) :
    decodeAll chunks = decodeAll [s] := by
  have hs : decodeAll [s] = [v] := by
    simp [decodeAll, decodeChunks, pollStep, hv]
  rw [hs]
  cases s with
  | nil => exact absurd hv (by rw [fromSlice_nil]; simp)
  | cons c0 s0 =>
    have h := foldl_pollStep_accum (c0 :: s0) v hv hpref chunks [] []
      (by simpa using hflat) (by simp)
    show (decodeChunks chunks).1 = [v]
    unfold decodeChunks
    rw [h]
    rfl

/-- Witness for C2's amended claim: the value `[1,2]` split into
single-byte chunks decodes to the same sequence as the unsplit
bytes. -/
theorem chunk_boundary_invariance_witness :
    fromSlice "[1,2]".toList = some (.arr [.num 1, .num 2]) ∧
      (∀ n, n < "[1,2]".toList.length → fromSlice ("[1,2]".toList.take n) = none) ∧
      ([['['], ['1'], [','], ['2'], [']']] : List (List Char)).flatten = "[1,2]".toList ∧
      decodeAll [['['], ['1'], [','], ['2'], [']']] = decodeAll ["[1,2]".toList] :=
  ⟨by decide, by decide, by decide,
    chunk_boundary_invariance "[1,2]".toList (.arr [.num 1, .num 2])
      [['['], ['1'], [','], ['2'], [']']] (by decide) (by decide) (by decide)⟩

/-! ## C7 — malformed input -/

/-- Once the buffer is malformed it stays malformed, so no further
chunk changes the emitted output. -/
theorem foldl_pollStep_malformed :
    ∀ (rest : List (List Char)) (out : List Json) (buf : List Char),
      Malformed buf → (List.foldl pollStep (out, buf) rest).1 = out := by
  intro rest
  induction rest with
  | nil => intro out buf _; rfl
  | cons r rs ih =>
    intro out buf h
    show (List.foldl pollStep (pollStep (out, buf) r) rs).1 = out
    have hstep : pollStep (out, buf) r = (out, buf ++ r) := by
      simp [pollStep, h r]
    rw [hstep]
    exact ih out (buf ++ r) (fun ext => by rw [List.append_assoc]; exact h (r ++ ext))

/-- Counterexample for C7: the malformed chunk `"]"` does not make the
decoder report any error — it silently keeps accumulating and, at end
of stream, terminates normally with no emitted value. -/
theorem malformed_no_error_counterexample :
    runDecoder [[']']] none = ([], .ended) ∧ ∀ e, DecEnd.ended ≠ DecEnd.failed e :=
  ⟨by decide, fun _ h => DecEnd.noConfusion h⟩

/-- C7 amended: when the accumulation buffer becomes structurally
invalid (no extension of it can parse as a JSON value), the decoder
reports no protocol error at all: it keeps polling and accumulating
chunks, never emits another value, and at end of stream terminates
normally — indistinguishable from ordinary exhaustion (an error
terminates its output only when the transport itself fails). -/
theorem malformed_input_no_error (pre : List (List Char)) (c : List Char)
    (rest : List (List Char)) (h : Malformed ((decodeChunks pre).2 ++ c)) :
    runDecoder (pre ++ c :: rest) none = (decodeAll pre, .ended) := by
  have hnone : fromSlice ((decodeChunks pre).2 ++ c) = none := by
    have h0 := h []
    rwa [List.append_nil] at h0
  have hstep : pollStep (decodeChunks pre) c
      = ((decodeChunks pre).1, (decodeChunks pre).2 ++ c) := by
    simp [pollStep, hnone]
  have hfold : decodeChunks (pre ++ c :: rest)
      = List.foldl pollStep (pollStep (decodeChunks pre) c) rest := by
    unfold decodeChunks
    rw [List.foldl_append]
    rfl
  have hfst : (decodeChunks (pre ++ c :: rest)).1 = (decodeChunks pre).1 := by
    rw [hfold, hstep]
    exact foldl_pollStep_malformed rest _ _ h
  unfold runDecoder
  rw [hfst]
  rfl

/-- A buffer starting with `']'` can never parse, whatever arrives
later: it is structurally invalid, not merely incomplete. -/
theorem malformed_rbrack : Malformed [']'] := by
  intro ext
  show fromSlice (']' :: ext) = none
  have h : parseVal ((']' :: ext).length + 1) (']' :: ext) = none := by
    simp [parseVal, skipWs, isWsChar, List.dropWhile_cons]
  unfold fromSlice
  rw [h]

/-- Witness for C7's amended claim: after the malformed chunk `"]"`, a
following well-formed chunk emits nothing and the stream ends normally
with no error. -/
theorem malformed_input_no_error_witness :
    runDecoder ([']'] :: ["null".toList]) none = ([], .ended) :=
  malformed_input_no_error [] [']'] ["null".toList] malformed_rbrack

/-! ## C10 — end of stream with a non-empty buffer -/

/-- C10: when the body ends while the decoder's buffer still holds the
bytes of a trailing value that never completed (its bytes `t` extend
the current buffer without yielding a parse), the decoder's
client-visible outcome is identical to the outcome without those
trailing bytes: the output terminates normally, with no error and no
final value, and the buffered bytes are silently discarded — a
truncated final value is indistinguishable from normal exhaustion. -/
theorem eos_discards_buffer (chunks : List (List Char)) (t : List Char)
    (h : fromSlice ((decodeChunks chunks).2 ++ t) = none) :
    runDecoder (chunks ++ [t]) none = runDecoder chunks none := by
  have hfold : decodeChunks (chunks ++ [t]) = pollStep (decodeChunks chunks) t := by
    unfold decodeChunks
    rw [List.foldl_append]
    rfl
  have hstep : pollStep (decodeChunks chunks) t
      = ((decodeChunks chunks).1, (decodeChunks chunks).2 ++ t) := by
    simp [pollStep, h]
  unfold runDecoder
  rw [hfold, hstep]

/-- Witness for C10: a body that delivers the value `[1]` and then the
truncated trailing bytes `"[2"` produces exactly the outcome of a body
that ends after `[1]`. -/
theorem eos_discards_buffer_witness :
    fromSlice ((decodeChunks ["[1]".toList]).2 ++ "[2".toList) = none ∧
      runDecoder ["[1]".toList, "[2".toList] none = runDecoder ["[1]".toList] none :=
  ⟨by decide, eos_discards_buffer ["[1]".toList] "[2".toList (by decide)⟩

end SledWeb
